import Mathlib

/-!
Verification development for the pyubcc candle collector
(`src/pyubcc/ubcc.py`).  Timestamps are modelled as integer counts of
microseconds since the midnight of an arbitrary epoch day, which is exactly
the information a Python `datetime` carries (up to calendar rendering):
`hour`, `minute`, `second`, `microsecond` are recovered with `emod`/`ediv`
by the corresponding unit sizes, and `timedelta` arithmetic is integer
addition.  Python's `%` and `//` on a positive right operand agree with
`Int.emod` / `Int.ediv`; Python's `int()` on an exact quotient truncates
towards zero, which is `Int.tdiv` on integers.
-/

namespace Pyubcc

/-- Microseconds in one minute. -/
def usPerMin : Int := 60000000

/-- Microseconds in one hour. -/
def usPerHour : Int := 3600000000

/-- Microseconds in one day. -/
def usPerDay : Int := 86400000000

/-- The `hour` field of a datetime (0..23). -/
def dtHour (t : Int) : Int := (t % usPerDay) / usPerHour

/-- The `minute` field of a datetime (0..59). -/
def dtMinute (t : Int) : Int := (t % usPerHour) / usPerMin

/-- Python `t.replace(hour=9, minute=0, second=0, microsecond=0)`:
keep the date, set the time of day to 09:00:00.000000. -/
def replaceHour9 (t : Int) : Int := (t / usPerDay) * usPerDay + 9 * usPerHour

/-- Python `t.replace(second=0, microsecond=0)`: drop the sub-minute part. -/
def zeroSecUs (t : Int) : Int := t - t % usPerMin

/-- The 09:00 session-open snap shared by `collect` (ubcc.py line 174) and
`_calculate_total_candles` (line 283): if the hour is before 9, move to
09:00 of the same date. -/
def snapTo9 (t : Int) : Int := if dtHour t < 9 then replaceHour9 t else t

/-- `minutes_from_nine = (hour - 9) * 60 + minute` (ubcc.py lines 178, 287). -/
def minutesFromNine (t : Int) : Int := (dtHour t - 9) * 60 + dtMinute t

/-- `minutes_total = hour * 60 + minute` (ubcc.py lines 187, 294). -/
def minutesFromMidnight (t : Int) : Int := dtHour t * 60 + dtMinute t

/-- Start alignment in `_calculate_total_candles` (ubcc.py lines 282-291):
snap to 09:00 if before it, then if the minutes from 09:00 are not a
multiple of the interval, ADD the complement (round up to the next candle
start).  Seconds are not zeroed on the round-up path. -/
def calcAlignStart (m t : Int) : Int :=
  if minutesFromNine (snapTo9 t) % m ≠ 0 then
    snapTo9 t + (m - minutesFromNine (snapTo9 t) % m) * usPerMin
  else snapTo9 t

/-- End alignment in `_calculate_total_candles` (ubcc.py lines 293-298):
round the minutes from midnight down to the previous multiple of the
interval.  Seconds are not zeroed here. -/
def calcAlignEnd (m t : Int) : Int :=
  if minutesFromMidnight t % m ≠ 0 then t - (minutesFromMidnight t % m) * usPerMin
  else t

/-- `calculate_minutes_between` composed with `int(...)` (ubcc.py lines
270-278 and 301): the truncated number of minutes between two datetimes. -/
def minutesBetweenInt (s e : Int) : Int := (e - s).tdiv usPerMin

/-- `_calculate_total_candles` (ubcc.py lines 280-304): align the two
boundaries, then floor-divide the truncated minute difference by the
interval (Python `//`). -/
def calculateTotalCandles (m s e : Int) : Int :=
  minutesBetweenInt (calcAlignStart m s) (calcAlignEnd m e) / m

/-- Start-boundary adjustment in `collect` (ubcc.py lines 173-184): snap to
09:00 if before it, then if the minutes from 09:00 are not a multiple of
the interval, SUBTRACT the remainder (round down to the previous candle
start), and finally zero seconds and microseconds. -/
def collectAdjustStart (m t : Int) : Int :=
  zeroSecUs
    (if minutesFromNine (snapTo9 t) % m ≠ 0 then
      snapTo9 t - (minutesFromNine (snapTo9 t) % m) * usPerMin
    else snapTo9 t)

/-- The `hour` field of `replaceHour9 t` is 9. -/
lemma dtHour_replaceHour9 (t : Int) : dtHour (replaceHour9 t) = 9 := by
  unfold dtHour replaceHour9 usPerDay usPerHour
  omega

/-- After the 09:00 snap, the hour is at least 9. -/
lemma nine_le_dtHour_snapTo9 (t : Int) : 9 ≤ dtHour (snapTo9 t) := by
  unfold snapTo9
  by_cases h : dtHour t < 9
  · rw [if_pos h, dtHour_replaceHour9]
  · rw [if_neg h]
    exact not_lt.mp h

/-- C1 counterexample: at interval 1, start 10:00 and end 09:00 of the same
day, both boundaries are already aligned (so the aligned end is before the
aligned start), yet `_calculate_total_candles` returns -60, a negative
number rather than the 0 the claim requires. -/
theorem calculateTotalCandles_negative_cex :
    calcAlignEnd 1 (9 * usPerHour) ≤ calcAlignStart 1 (10 * usPerHour) ∧
    calculateTotalCandles 1 (10 * usPerHour) (9 * usPerHour) = -60 ∧
    calculateTotalCandles 1 (10 * usPerHour) (9 * usPerHour) < 0 := by
  decide

/-- C1 (amended): the count `_calculate_total_candles` returns is
non-negative whenever the aligned start is at or before the aligned end,
is non-positive (but possibly negative, not 0) whenever the aligned end is
at or before the aligned start, and is 0 when the two aligned boundaries
coincide. -/
theorem calculateTotalCandles_sign (m s e : Int) (hm : 0 < m) :
    (calcAlignStart m s ≤ calcAlignEnd m e → 0 ≤ calculateTotalCandles m s e) ∧
    (calcAlignEnd m e ≤ calcAlignStart m s → calculateTotalCandles m s e ≤ 0) ∧
    (calcAlignEnd m e = calcAlignStart m s → calculateTotalCandles m s e = 0) := by
  have hMin : (0 : Int) ≤ usPerMin := by norm_num [usPerMin]
  refine ⟨fun h => ?_, fun h => ?_, fun h => ?_⟩
  · have h1 : (0 : Int) ≤ calcAlignEnd m e - calcAlignStart m s := sub_nonneg.mpr h
    unfold calculateTotalCandles minutesBetweenInt
    rw [Int.tdiv_eq_ediv h1 hMin]
    exact Int.ediv_nonneg (Int.ediv_nonneg h1 hMin) hm.le
  · have h1 : (0 : Int) ≤ calcAlignStart m s - calcAlignEnd m e := sub_nonneg.mpr h
    unfold calculateTotalCandles minutesBetweenInt
    have h2 : (calcAlignEnd m e - calcAlignStart m s).tdiv usPerMin ≤ 0 := by
      have h3 : calcAlignEnd m e - calcAlignStart m s
          = -(calcAlignStart m s - calcAlignEnd m e) := by ring
      rw [h3, Int.neg_tdiv, Int.tdiv_eq_ediv h1 hMin, neg_nonpos]
      exact Int.ediv_nonneg h1 hMin
    calc (calcAlignEnd m e - calcAlignStart m s).tdiv usPerMin / m
        ≤ 0 / m := Int.ediv_le_ediv hm h2
      _ = 0 := Int.zero_ediv m
  · unfold calculateTotalCandles minutesBetweenInt
    rw [h, sub_self, Int.zero_tdiv, Int.zero_ediv]

/-- C1 witness: a concrete aligned pair with start before end gives a
non-negative count. -/
theorem calculateTotalCandles_sign_witness :
    0 ≤ calculateTotalCandles 1 (9 * usPerHour) (10 * usPerHour) :=
  (calculateTotalCandles_sign 1 (9 * usPerHour) (10 * usPerHour) (by norm_num)).1
    (by decide)

/-- C2 counterexample: at interval 5 and input time 10:01:00, the start
boundary computed by `collect` (ubcc.py lines 173-184) is 10:00, i.e. it
is rounded DOWN below the input time, not up to 10:05 as the claim
states; moreover the round-up path that does exist
(`_calculate_total_candles`) maps 10:01:30 to 10:05:30, keeping the
30 seconds instead of zeroing them. -/
theorem collectAdjustStart_roundsDown_cex :
    collectAdjustStart 5 (10 * usPerHour + usPerMin) = 10 * usPerHour ∧
    collectAdjustStart 5 (10 * usPerHour + usPerMin) < 10 * usPerHour + usPerMin ∧
    collectAdjustStart 5 (10 * usPerHour + usPerMin) ≠ 10 * usPerHour + 5 * usPerMin ∧
    calcAlignStart 5 (10 * usPerHour + usPerMin + 30000000)
      = 10 * usPerHour + 5 * usPerMin + 30000000 ∧
    calcAlignStart 5 (10 * usPerHour + usPerMin + 30000000)
      ≠ 10 * usPerHour + 5 * usPerMin := by
  decide

/-- C2 (amended): both start alignments first snap times before 09:00 to
09:00 of the same date, and both land on an exact multiple of the interval
measured from that 09:00 session anchor, but in opposite directions: the
boundary used by `collect` rounds DOWN (the result is at most the snapped
time, less than one interval below it) and zeroes seconds/sub-seconds,
while `_calculate_total_candles` rounds UP (the result is at least the
snapped time, less than one interval above it) and keeps the sub-minute
part of the snapped time unchanged. -/
theorem startAlignment_directions (m t : Int) (hm : 0 < m) :
    (∃ k : Int, 0 ≤ k ∧
      collectAdjustStart m t =
        snapTo9 t / usPerDay * usPerDay + 9 * usPerHour + m * k * usPerMin ∧
      collectAdjustStart m t ≤ snapTo9 t ∧
      snapTo9 t - collectAdjustStart m t < m * usPerMin) ∧
    (∃ k : Int, 0 ≤ k ∧
      calcAlignStart m t =
        snapTo9 t / usPerDay * usPerDay + 9 * usPerHour + m * k * usPerMin
          + snapTo9 t % usPerMin ∧
      snapTo9 t ≤ calcAlignStart m t ∧
      calcAlignStart m t - snapTo9 t < m * usPerMin) := by
  obtain ⟨t1, ht1, h9⟩ : ∃ t1, snapTo9 t = t1 ∧ 9 ≤ dtHour t1 :=
    ⟨snapTo9 t, rfl, nine_le_dtHour_snapTo9 t⟩
  have hdec : t1 = t1 / usPerDay * usPerDay + dtHour t1 * usPerHour
      + dtMinute t1 * usPerMin + t1 % usPerMin := by
    simp only [dtHour, dtMinute, usPerDay, usPerHour, usPerMin]
    omega
  have hsublo : 0 ≤ t1 % usPerMin := by simp only [usPerMin]; omega
  have hsubhi : t1 % usPerMin < usPerMin := by simp only [usPerMin]; omega
  have hmi : 0 ≤ dtMinute t1 := by simp only [dtMinute, usPerHour, usPerMin]; omega
  have hmfn : minutesFromNine t1 = (dtHour t1 - 9) * 60 + dtMinute t1 := rfl
  have hmfn0 : 0 ≤ minutesFromNine t1 := by rw [hmfn]; linarith
  obtain ⟨k, r, hk0, hr0, hr1, hkr, hreq⟩ : ∃ k r : Int, 0 ≤ k ∧ 0 ≤ r ∧ r + 1 ≤ m ∧
      m * k + r = minutesFromNine t1 ∧ minutesFromNine t1 % m = r :=
    ⟨_, _, Int.ediv_nonneg hmfn0 hm.le, Int.emod_nonneg _ (ne_of_gt hm),
      Int.lt_iff_add_one_le.mp (Int.emod_lt_of_pos _ hm), Int.ediv_add_emod _ m, rfl⟩
  rw [ht1]
  constructor
  · have hval : collectAdjustStart m t = t1 - r * usPerMin - t1 % usPerMin := by
      simp only [collectAdjustStart, ht1, hreq, zeroSecUs]
      by_cases hr : r = 0
      · rw [if_neg (by simp [hr])]
        rw [hr]
        ring
      · rw [if_pos hr]
        have hcancel : (t1 - r * usPerMin) % usPerMin = t1 % usPerMin := by
          conv_lhs => rw [sub_eq_add_neg, ← neg_mul]
          exact Int.add_mul_emod_self
        rw [hcancel]
    refine ⟨k, hk0, ?_, ?_, ?_⟩
    · rw [hval]
      simp only [usPerMin, usPerHour, usPerDay] at hdec ⊢
      linarith [hdec, hmfn, hkr]
    · rw [hval]
      simp only [usPerMin] at hsublo ⊢
      linarith
    · rw [hval]
      simp only [usPerMin] at hsublo hsubhi ⊢
      linarith
  · have hval2 : calcAlignStart m t = t1 + (if r = 0 then 0 else m - r) * usPerMin := by
      simp only [calcAlignStart, ht1, hreq]
      by_cases hr : r = 0
      · rw [if_neg (by simp [hr]), if_pos hr]
        ring
      · rw [if_pos hr, if_neg hr]
    by_cases hcase : r = 0
    · refine ⟨k, hk0, ?_, ?_, ?_⟩
      · rw [hval2, if_pos hcase]
        rw [hcase] at hkr
        simp only [usPerMin, usPerHour, usPerDay] at hdec ⊢
        linarith [hdec, hmfn, hkr]
      · rw [hval2, if_pos hcase]
        simp only [usPerMin]
        linarith
      · rw [hval2, if_pos hcase]
        rw [hcase] at hr1
        simp only [usPerMin]
        linarith
    · have hrge1 : 1 ≤ r := by omega
      have hexp : m * (k + 1) = m * k + m := by ring
      refine ⟨k + 1, by linarith, ?_, ?_, ?_⟩
      · rw [hval2, if_neg hcase]
        simp only [usPerMin, usPerHour, usPerDay] at hdec ⊢
        linarith [hdec, hmfn, hkr, hexp]
      · rw [hval2, if_neg hcase]
        simp only [usPerMin]
        linarith
      · rw [hval2, if_neg hcase]
        simp only [usPerMin]
        linarith

/-- C2 witness: at interval 5 and time 10:01, the collect boundary does not
exceed the snapped time. -/
theorem startAlignment_directions_witness :
    collectAdjustStart 5 (10 * usPerHour + usPerMin)
      ≤ snapTo9 (10 * usPerHour + usPerMin) := by
  obtain ⟨_, _, _, hle, _⟩ :=
    (startAlignment_directions 5 (10 * usPerHour + usPerMin) (by norm_num)).1
  exact hle


/-! ### Store model

`initialize_db` (ubcc.py lines 84-98) creates a table
`ohlcv(timestamp DATETIME PRIMARY KEY, open, high, low, close, volume)`.
The table is modelled by its logical content: an association list from
timestamp to OHLCV values kept in ascending key order (the order in which
every query in the file reads it).  `INSERT OR REPLACE` on the primary key
(ubcc.py lines 327-332) is `upsertOne`; a whole `executemany` batch is
`upsertBatch`.  Prices/volumes are Python floats, modelled as rationals
(no arithmetic is ever performed on them, they are only stored and
compared). -/

structure Candle where
  o : Rat
  hi : Rat
  lo : Rat
  cl : Rat
  vol : Rat
deriving DecidableEq

abbrev Store := List (Int × Candle)

def upsertOne (s : Store) (ts : Int) (cd : Candle) : Store :=
  match s with
  | [] => [(ts, cd)]
  | (t, c0) :: rest =>
    if ts < t then (ts, cd) :: (t, c0) :: rest
    else if ts = t then (ts, cd) :: rest
    else (t, c0) :: upsertOne rest ts cd

def upsertBatch (s : Store) (b : List (Int × Candle)) : Store :=
  b.foldl (fun acc p => upsertOne acc p.1 p.2) s

def storeKeys (s : Store) : List Int := s.map Prod.fst

def storeInv (s : Store) : Prop := (storeKeys s).Pairwise (· < ·)

def storeGet : Store → Int → Option Candle
  | [], _ => none
  | (t, c0) :: rest, k => if k = t then some c0 else storeGet rest k

def countKey (s : Store) (k : Int) : Nat :=
  (s.filter fun p => decide (p.1 = k)).length

def lastVal : List (Int × Candle) → Int → Option Candle
  | [], _ => none
  | p :: b, k =>
    match lastVal b k with
    | some cd => some cd
    | none => if p.1 = k then some p.2 else none

lemma mem_storeKeys_upsertOne {s : Store} {ts x : Int} {cd : Candle}
    (h : x ∈ storeKeys (upsertOne s ts cd)) : x = ts ∨ x ∈ storeKeys s := by
  induction s with
  | nil =>
    simp [upsertOne, storeKeys] at h
    exact Or.inl h
  | cons p rest ih =>
    obtain ⟨t, c0⟩ := p
    simp only [upsertOne] at h
    by_cases h1 : ts < t
    · rw [if_pos h1] at h
      simp only [storeKeys, List.map_cons, List.mem_cons] at h ⊢
      tauto
    · rw [if_neg h1] at h
      by_cases h2 : ts = t
      · rw [if_pos h2] at h
        simp only [storeKeys, List.map_cons, List.mem_cons] at h ⊢
        tauto
      · rw [if_neg h2] at h
        simp only [storeKeys, List.map_cons, List.mem_cons] at h ⊢
        rcases h with h | h
        · tauto
        · rcases ih h with h3 | h3 <;> tauto

lemma storeInv_upsertOne {s : Store} {ts : Int} {cd : Candle}
    (h : storeInv s) : storeInv (upsertOne s ts cd) := by
  induction s with
  | nil => simp [upsertOne, storeInv, storeKeys]
  | cons p rest ih =>
    obtain ⟨t, c0⟩ := p
    simp only [storeInv, storeKeys, List.map_cons, List.pairwise_cons] at h
    obtain ⟨hall, htail⟩ := h
    simp only [upsertOne]
    by_cases h1 : ts < t
    · rw [if_pos h1]
      simp only [storeInv, storeKeys, List.map_cons, List.pairwise_cons]
      refine ⟨?_, ?_⟩
      · intro x hx
        simp only [List.mem_cons] at hx
        rcases hx with rfl | hx
        · exact h1
        · exact h1.trans (hall x hx)
      · exact ⟨hall, htail⟩
    · rw [if_neg h1]
      by_cases h2 : ts = t
      · rw [if_pos h2]
        simp only [storeInv, storeKeys, List.map_cons, List.pairwise_cons]
        subst h2
        exact ⟨hall, htail⟩
      · rw [if_neg h2]
        have h3 : t < ts := by omega
        simp only [storeInv, storeKeys, List.map_cons, List.pairwise_cons]
        refine ⟨?_, ih htail⟩
        intro x hx
        rcases mem_storeKeys_upsertOne hx with rfl | hx
        · exact h3
        · exact hall x hx

lemma storeGet_upsertOne_self (s : Store) (ts : Int) (cd : Candle) :
    storeGet (upsertOne s ts cd) ts = some cd := by
  induction s with
  | nil => simp [upsertOne, storeGet]
  | cons p rest ih =>
    obtain ⟨t, c0⟩ := p
    simp only [upsertOne]
    by_cases h1 : ts < t
    · rw [if_pos h1]
      simp [storeGet]
    · rw [if_neg h1]
      by_cases h2 : ts = t
      · rw [if_pos h2]
        simp [storeGet]
      · rw [if_neg h2]
        simp only [storeGet, if_neg h2]
        exact ih

lemma storeGet_upsertOne_ne (s : Store) (ts k : Int) (cd : Candle) (h : k ≠ ts) :
    storeGet (upsertOne s ts cd) k = storeGet s k := by
  induction s with
  | nil => simp [upsertOne, storeGet, h]
  | cons p rest ih =>
    obtain ⟨t, c0⟩ := p
    simp only [upsertOne]
    by_cases h1 : ts < t
    · rw [if_pos h1]
      simp only [storeGet, if_neg h]
    · rw [if_neg h1]
      by_cases h2 : ts = t
      · rw [if_pos h2]
        subst h2
        simp only [storeGet, if_neg h]
      · rw [if_neg h2]
        simp only [storeGet]
        by_cases h3 : k = t
        · rw [if_pos h3, if_pos h3]
        · rw [if_neg h3, if_neg h3]
          exact ih

lemma storeGet_upsertBatch (b : List (Int × Candle)) :
    ∀ (s : Store) (k : Int), storeGet (upsertBatch s b) k =
      match lastVal b k with
      | some cd => some cd
      | none => storeGet s k := by
  induction b with
  | nil => intro s k; rfl
  | cons p b ih =>
    intro s k
    have hstep : upsertBatch s (p :: b) = upsertBatch (upsertOne s p.1 p.2) b := rfl
    rw [hstep, ih]
    simp only [lastVal]
    cases hlv : lastVal b k with
    | some cd => rfl
    | none =>
      by_cases hk : p.1 = k
      · subst hk
        rw [if_pos rfl, storeGet_upsertOne_self]
      · rw [if_neg hk, storeGet_upsertOne_ne s p.1 k p.2 (fun h => hk h.symm)]

lemma storeInv_upsertBatch (b : List (Int × Candle)) :
    ∀ {s : Store}, storeInv s → storeInv (upsertBatch s b) := by
  induction b with
  | nil => intro s h; exact h
  | cons p b ih =>
    intro s h
    exact ih (storeInv_upsertOne h)

lemma countKey_eq_zero_of_not_mem {s : Store} {k : Int} (h : k ∉ storeKeys s) :
    countKey s k = 0 := by
  induction s with
  | nil => rfl
  | cons p rest ih =>
    simp only [storeKeys, List.map_cons, List.mem_cons, not_or] at h
    simp only [countKey, List.filter_cons]
    rw [if_neg (by simpa using fun h' => h.1 h'.symm)]
    exact ih h.2

lemma countKey_eq_one_of_mem {s : Store} {k : Int}
    (hinv : storeInv s) (hmem : k ∈ storeKeys s) : countKey s k = 1 := by
  induction s with
  | nil => simp [storeKeys] at hmem
  | cons p rest ih =>
    obtain ⟨t, c0⟩ := p
    simp only [storeInv, storeKeys, List.map_cons, List.pairwise_cons] at hinv
    obtain ⟨hall, htail⟩ := hinv
    simp only [storeKeys, List.map_cons, List.mem_cons] at hmem
    simp only [countKey, List.filter_cons]
    rcases hmem with rfl | hmem
    · rw [if_pos (by simp)]
      simp only [List.length_cons]
      have : countKey rest k = 0 := by
        apply countKey_eq_zero_of_not_mem
        intro hmem'
        exact absurd (hall k hmem') (lt_irrefl k)
      simpa [countKey] using this
    · have hne : t ≠ k := ne_of_lt (hall k hmem)
      rw [if_neg (by simp [hne])]
      exact ih htail hmem

lemma mem_storeKeys_of_storeGet {s : Store} {k : Int} {cd : Candle}
    (h : storeGet s k = some cd) : k ∈ storeKeys s := by
  induction s with
  | nil => simp [storeGet] at h
  | cons p rest ih =>
    obtain ⟨t, c0⟩ := p
    simp only [storeGet] at h
    by_cases h1 : k = t
    · simp [storeKeys, h1]
    · rw [if_neg h1] at h
      simp only [storeKeys, List.map_cons, List.mem_cons]
      exact Or.inr (ih h)

lemma storeGet_eq_none_of_not_mem {s : Store} {k : Int}
    (h : k ∉ storeKeys s) : storeGet s k = none := by
  cases hg : storeGet s k with
  | none => rfl
  | some cd => exact absurd (mem_storeKeys_of_storeGet hg) h

lemma storeExt : ∀ {s1 s2 : Store}, storeInv s1 → storeInv s2 →
    (∀ k, storeGet s1 k = storeGet s2 k) → s1 = s2 := by
  intro s1
  induction s1 with
  | nil =>
    intro s2 _ h2 hg
    cases s2 with
    | nil => rfl
    | cons p rest =>
      obtain ⟨t, c0⟩ := p
      have := hg t
      simp [storeGet] at this
  | cons p rest ih =>
    intro s2 h1 h2 hg
    obtain ⟨t1, c1⟩ := p
    cases s2 with
    | nil =>
      have := hg t1
      simp [storeGet] at this
    | cons q rest2 =>
      obtain ⟨t2, c2⟩ := q
      simp only [storeInv, storeKeys, List.map_cons, List.pairwise_cons] at h1 h2
      obtain ⟨hall1, htail1⟩ := h1
      obtain ⟨hall2, htail2⟩ := h2
      have hteq : t1 = t2 := by
        rcases lt_trichotomy t1 t2 with hlt | heq | hgt
        · exfalso
          have hg1 := hg t1
          simp only [storeGet, if_pos rfl] at hg1
          rw [if_neg (ne_of_lt hlt)] at hg1
          have hnm : t1 ∉ storeKeys rest2 := by
            intro hmem
            exact absurd (hlt.trans (hall2 t1 hmem)) (lt_irrefl t1)
          rw [storeGet_eq_none_of_not_mem hnm] at hg1
          exact Option.noConfusion hg1
        · exact heq
        · exfalso
          have hg2 := hg t2
          simp only [storeGet, if_pos rfl] at hg2
          rw [if_neg (ne_of_lt hgt)] at hg2
          have hnm : t2 ∉ storeKeys rest := by
            intro hmem
            exact absurd (hgt.trans (hall1 t2 hmem)) (lt_irrefl t2)
          rw [storeGet_eq_none_of_not_mem hnm] at hg2
          exact Option.noConfusion hg2
      subst hteq
      have hceq : c1 = c2 := by
        have := hg t1
        simp only [storeGet, if_pos rfl] at this
        exact Option.some.inj this
      subst hceq
      congr 1
      apply ih htail1 htail2
      intro k
      by_cases hk : k = t1
      · subst hk
        have hn1 : storeGet rest k = none := by
          apply storeGet_eq_none_of_not_mem
          intro hmem
          exact absurd (hall1 k hmem) (lt_irrefl k)
        have hn2 : storeGet rest2 k = none := by
          apply storeGet_eq_none_of_not_mem
          intro hmem
          exact absurd (hall2 k hmem) (lt_irrefl k)
        rw [hn1, hn2]
      · have := hg k
        simp only [storeGet, if_neg hk] at this
        exact this

/-- C5: upserting a batch whose last entry for an already-stored timestamp
carries value `cd` leaves exactly one row for that timestamp holding `cd`
(latest values win), and upserting the same batch twice gives the same
store as upserting it once. -/
theorem upsertBatch_replace_idempotent (s : Store) (b : List (Int × Candle))
    (ts : Int) (cd : Candle) (hinv : storeInv s) (hmem : ts ∈ storeKeys s)
    (hlast : lastVal b ts = some cd) :
    storeGet (upsertBatch s b) ts = some cd ∧
    countKey (upsertBatch s b) ts = 1 ∧
    upsertBatch (upsertBatch s b) b = upsertBatch s b := by
  have hget : storeGet (upsertBatch s b) ts = some cd := by
    rw [storeGet_upsertBatch, hlast]
  have hinv1 : storeInv (upsertBatch s b) := storeInv_upsertBatch b hinv
  refine ⟨hget, ?_, ?_⟩
  · exact countKey_eq_one_of_mem hinv1 (mem_storeKeys_of_storeGet hget)
  · apply storeExt (storeInv_upsertBatch b hinv1) hinv1
    intro k
    rw [storeGet_upsertBatch, storeGet_upsertBatch]
    cases lastVal b k with
    | some cd' => rfl
    | none => rfl

/-- C5 witness: overwriting the single stored candle at timestamp 0 with new
values yields the new values. -/
theorem upsertBatch_replace_idempotent_witness :
    storeGet (upsertBatch [((0 : Int), Candle.mk 1 1 1 1 1)]
      [((0 : Int), Candle.mk 2 2 2 2 2)]) 0 = some (Candle.mk 2 2 2 2 2) :=
  (upsertBatch_replace_idempotent [((0 : Int), Candle.mk 1 1 1 1 1)]
    [((0 : Int), Candle.mk 2 2 2 2 2)] 0 (Candle.mk 2 2 2 2 2)
    (by simp [storeInv, storeKeys]) (by simp [storeKeys]) rfl).1


/-! ### Transaction model for `_save_dataframe_to_db`

`_save_dataframe_to_db` (ubcc.py lines 306-347) runs `executemany` of
`INSERT OR REPLACE` rows inside the connection's implicit transaction,
then `conn.commit()`; on any exception it calls `conn.rollback()` and
re-raises.  A connection is modelled as its committed store plus the
pending (uncommitted) store of the open transaction; `executemany` applies
the rows one-by-one to the pending store and may fail just before row
`failAt` (the error value carries the partially updated pending store,
which rollback then discards). -/

structure Conn where
  committed : Store
  pending : Store

/-- One `executemany` run over the pending store: applies each row in
order; if `failAt = some k` (with `k` rows still ahead), it fails there,
returning the partially written pending store as the error payload. -/
def execManyFrom : Store → List (Int × Candle) → Option Nat → Except Store Store
  | p, [], _ => .ok p
  | p, _ :: _, some 0 => .error p
  | p, r :: rs, some (Nat.succ k) => execManyFrom (upsertOne p r.1 r.2) rs (some k)
  | p, r :: rs, none => execManyFrom (upsertOne p r.1 r.2) rs none

/-- `_save_dataframe_to_db` (ubcc.py lines 306-347): execute the batch,
commit and return `len(data)` on success; on failure roll back (pending
reverts to committed) and propagate the error. -/
def saveDataframeToDb (cn : Conn) (rows : List (Int × Candle)) (failAt : Option Nat) :
    Conn × Except Unit Nat :=
  match execManyFrom cn.pending rows failAt with
  | .ok p => (⟨p, p⟩, .ok rows.length)
  | .error _ => (⟨cn.committed, cn.committed⟩, .error ())

lemma execManyFrom_none (rows : List (Int × Candle)) :
    ∀ p : Store, execManyFrom p rows none = .ok (upsertBatch p rows) := by
  induction rows with
  | nil => intro p; rfl
  | cons r rs ih =>
    intro p
    exact ih (upsertOne p r.1 r.2)

lemma execManyFrom_some_lt (rows : List (Int × Candle)) :
    ∀ (p : Store) (k : Nat), k < rows.length →
      execManyFrom p rows (some k) = .error (upsertBatch p (rows.take k)) := by
  induction rows with
  | nil =>
    intro p k hk
    simp at hk
  | cons r rs ih =>
    intro p k hk
    cases k with
    | zero => rfl
    | succ k =>
      simp only [List.length_cons, Nat.succ_lt_succ_iff] at hk
      simp only [execManyFrom, List.take_succ_cons]
      rw [ih (upsertOne p r.1 r.2) k hk]
      rfl

/-- C6: starting from a connection with no open writes, a failure at any
row of the batch leaves the committed store unchanged, leaves no pending
row behind, and surfaces as an error; a fully successful run commits the
whole batch and returns the batch length as the count written. -/
theorem saveDataframe_atomic (cn : Conn) (rows : List (Int × Candle)) (k : Nat)
    (hpc : cn.pending = cn.committed) (hk : k < rows.length) :
    (saveDataframeToDb cn rows (some k)).2 = Except.error () ∧
    (saveDataframeToDb cn rows (some k)).1.committed = cn.committed ∧
    (saveDataframeToDb cn rows (some k)).1.pending = cn.committed ∧
    (saveDataframeToDb cn rows none).2 = Except.ok rows.length ∧
    (saveDataframeToDb cn rows none).1.committed = upsertBatch cn.committed rows := by
  have hfail : execManyFrom cn.pending rows (some k)
      = .error (upsertBatch cn.pending (rows.take k)) :=
    execManyFrom_some_lt rows cn.pending k hk
  have hok : execManyFrom cn.pending rows none = .ok (upsertBatch cn.pending rows) :=
    execManyFrom_none rows cn.pending
  rw [hpc] at hfail hok
  refine ⟨?_, ?_, ?_, ?_, ?_⟩ <;> simp [saveDataframeToDb, hpc, hfail, hok]

/-- C6 witness: failing on the very first row of a one-row batch commits
nothing. -/
theorem saveDataframe_atomic_witness :
    (saveDataframeToDb ⟨[], []⟩ [((0 : Int), Candle.mk 1 1 1 1 1)] (some 0)).1.committed
      = [] :=
  (saveDataframe_atomic ⟨[], []⟩ [((0 : Int), Candle.mk 1 1 1 1 1)] 0 rfl
    (by norm_num)).2.1

/-! ### Ordering verification (`verify_data`)

`verify_data` (ubcc.py lines 349-385) reads the stored timestamps ordered
ascending and counts, via `LAG`, the adjacent pairs whose earlier
timestamp is not strictly below the later one (`prev_timestamp >=
timestamp`; the first row has a NULL `prev_timestamp` and is never
counted). -/

def orderingMismatches (l : List Int) : Nat :=
  ((l.zip l.tail).filter fun p => decide (p.2 ≤ p.1)).length

lemma orderingMismatches_eq_zero_iff (l : List Int) :
    orderingMismatches l = 0 ↔ l.Chain' (· < ·) := by
  induction l with
  | nil => simp [orderingMismatches]
  | cons a tl ih =>
    cases tl with
    | nil => simp [orderingMismatches]
    | cons b rest =>
      simp only [orderingMismatches, List.tail_cons, List.zip_cons_cons,
        List.filter_cons] at ih ⊢
      rw [List.chain'_cons]
      by_cases hba : b ≤ a
      · simp only [decide_eq_true_eq, if_pos hba, List.length_cons]
        constructor
        · intro h
          exact absurd h (Nat.succ_ne_zero _)
        · intro ⟨hab, _⟩
          exact absurd hba (not_le.mpr hab)
      · simp only [decide_eq_true_eq, if_neg hba]
        rw [ih]
        simp [not_le.mp hba]

lemma storeInv_foldl (bs : List (List (Int × Candle))) :
    ∀ s : Store, storeInv s → storeInv (bs.foldl upsertBatch s) := by
  induction bs with
  | nil => intro s h; exact h
  | cons b bs ih =>
    intro s h
    exact ih (upsertBatch s b) (storeInv_upsertBatch b h)

/-- C9: the ordering-mismatch count is 0 exactly when the adjacent stored
timestamps (read in ascending order) are strictly increasing, and every
store reachable from the empty table through `upsertBatch` (the
timestamp-primary-key upsert) has mismatch count 0. -/
theorem verifyMismatches_spec :
    (∀ l : List Int, orderingMismatches l = 0 ↔ l.Chain' (· < ·)) ∧
    (∀ bs : List (List (Int × Candle)),
      orderingMismatches (storeKeys (bs.foldl upsertBatch ([] : Store))) = 0) := by
  refine ⟨orderingMismatches_eq_zero_iff, fun bs => ?_⟩
  have hinv : storeInv (bs.foldl upsertBatch ([] : Store)) :=
    storeInv_foldl bs [] (by simp [storeInv, storeKeys])
  exact (orderingMismatches_eq_zero_iff _).mpr hinv.chain'


/-! ### Gap analysis (`analyze_gaps`)

`analyze_gaps` (ubcc.py lines 446-504) reads the stored timestamps in
ascending order and, for each adjacent pair whose spacing exceeds the
expected interval, records a gap with
`missing_candles = int(diff_minutes / interval - 1)`.  The record's
human-readable `duration` string is presentation-only and omitted.  Under
the guard `diff > interval` the quantity `diff_minutes/interval - 1` is
positive, so Python's truncating `int(...)` equals the floor
`diff / (interval minutes) - 1` used below. -/

structure GapRec where
  gapStart : Int
  gapEnd : Int
  missingCandles : Int
deriving DecidableEq

def gapMissingCount (m d : Int) : Int := d / (m * usPerMin) - 1

def analyzeGaps (m : Int) : List Int → List GapRec
  | [] => []
  | [_] => []
  | a :: b :: rest =>
    (if m * usPerMin < b - a then [⟨a, b, gapMissingCount m (b - a)⟩] else [])
      ++ analyzeGaps m (b :: rest)

/-- C4: for each adjacent pair of stored timestamps read in ascending
order, `analyze_gaps` records exactly one gap record (with start, end and
`floor(diff minutes / interval) - 1` missing candles) when the pair's
spacing exceeds the interval and nothing otherwise; in particular the
stored sequence `[T, T+2m, T+3m]` yields exactly one gap with one missing
candle. -/
theorem analyzeGaps_spec (m : Int) (hm : 0 < m) :
    (∀ l : List Int, analyzeGaps m l =
      (l.zip l.tail).filterMap fun p =>
        if m * usPerMin < p.2 - p.1 then
          some ⟨p.1, p.2, gapMissingCount m (p.2 - p.1)⟩
        else none) ∧
    (∀ T : Int, analyzeGaps m [T, T + 2 * (m * usPerMin), T + 3 * (m * usPerMin)] =
      [⟨T, T + 2 * (m * usPerMin), 1⟩]) := by
  have hpos : 0 < m * usPerMin := by
    have : (0 : Int) < usPerMin := by norm_num [usPerMin]
    positivity
  constructor
  · intro l
    induction l with
    | nil => rfl
    | cons a tl ih =>
      cases tl with
      | nil => rfl
      | cons b rest =>
        simp only [analyzeGaps, ih, List.tail_cons, List.zip_cons_cons,
          List.filterMap_cons]
        by_cases hgap : m * usPerMin < b - a
        · rw [if_pos hgap, if_pos hgap]
          rfl
        · rw [if_neg hgap, if_neg hgap]
          rfl
  · intro T
    have h1 : T + 2 * (m * usPerMin) - T = 2 * (m * usPerMin) := by ring
    have h2 : T + 3 * (m * usPerMin) - (T + 2 * (m * usPerMin)) = m * usPerMin := by
      ring
    have hcond1 : m * usPerMin < T + 2 * (m * usPerMin) - T := by
      rw [h1]; linarith
    have hcond2 : ¬ (m * usPerMin < T + 3 * (m * usPerMin) - (T + 2 * (m * usPerMin))) := by
      rw [h2]; exact lt_irrefl _
    have hmiss : gapMissingCount m (T + 2 * (m * usPerMin) - T) = 1 := by
      rw [h1]
      unfold gapMissingCount
      rw [Int.mul_ediv_cancel _ (ne_of_gt hpos)]
      norm_num
    simp only [analyzeGaps, if_pos hcond1, if_neg hcond2, hmiss]
    simp

/-- C4 witness: the interval-1 instance of the synthetic sequence. -/
theorem analyzeGaps_spec_witness :
    analyzeGaps 1 [0, 2 * (1 * usPerMin), 3 * (1 * usPerMin)]
      = [⟨0, 2 * (1 * usPerMin), 1⟩] :=
  (analyzeGaps_spec 1 (by norm_num)).2 0

/-! ### Gap filtering in `get_ohlcv_data`

`get_ohlcv_data` (ubcc.py lines 387-426) with `filter_gaps=True` keeps a
row iff the pandas `diff()` to its predecessor in the queried range equals
the expected interval, with the first row forced to `True`; the
predecessor used is the one in the unfiltered query result. -/

def filterGapsAux (m : Int) : Int → List (Int × Candle) → List (Int × Candle)
  | _, [] => []
  | prev, y :: rest =>
    if y.1 - prev = m * usPerMin then y :: filterGapsAux m y.1 rest
    else filterGapsAux m y.1 rest

def filterGapsList (m : Int) : List (Int × Candle) → List (Int × Candle)
  | [] => []
  | x :: rest => x :: filterGapsAux m x.1 rest

lemma filterGapsAux_eq (m : Int) :
    ∀ (rest : List (Int × Candle)) (q : Int × Candle),
      filterGapsAux m q.1 rest =
        ((q :: rest).zip rest).filterMap fun p =>
          if p.2.1 - p.1.1 = m * usPerMin then some p.2 else none := by
  intro rest
  induction rest with
  | nil => intro q; rfl
  | cons y rest ih =>
    intro q
    simp only [filterGapsAux, List.zip_cons_cons, List.filterMap_cons]
    by_cases hy : y.1 - q.1 = m * usPerMin
    · rw [if_pos hy, if_pos hy, ih y]
    · rw [if_neg hy, if_neg hy, ih y]

/-- C10: with gap filtering on, the returned rows are exactly the first
row of the range plus those rows whose immediate predecessor in the
queried range sits exactly one interval earlier; a stored range with a
gap therefore comes back as a strict subset (the first candle after the
gap is dropped). -/
theorem filterGaps_spec :
    (∀ (m : Int) (x : Int × Candle) (rest : List (Int × Candle)),
      filterGapsList m (x :: rest) =
        x :: ((x :: rest).zip rest).filterMap fun p =>
          if p.2.1 - p.1.1 = m * usPerMin then some p.2 else none) ∧
    filterGapsList 1 [((0 : Int), Candle.mk 1 1 1 1 1),
        (2 * usPerMin, Candle.mk 1 1 1 1 1)]
      = [((0 : Int), Candle.mk 1 1 1 1 1)] := by
  constructor
  · intro m x rest
    simp only [filterGapsList]
    rw [filterGapsAux_eq m rest x]
  · decide


/-! ### Backward pagination loop in `collect`

The resume decision (ubcc.py lines 146-163) reads the store extremes: on
an empty store the requested start stands; when the stored minimum is
later than the requested start the requested start is kept; otherwise the
start advances to the stored maximum.  The loop (lines 200-258) walks a
cursor backward from the end while `cursor > start`, requesting
`max(1, min(200, diff_minutes // interval))` candles each time; a
non-empty page is sorted ascending and the cursor moves to its earliest
timestamp (`df.index[0]`), while an absent or empty page moves the cursor
back by `200 * interval` minutes.  The fixed 9-hour reporting-timezone
shift applied to the request's `to` parameter (line 212) is a constant
offset on a field the claims do not mention and is omitted.  The loop is modelled by its trace of
issued fetch requests `(cursor, count)` against an abstract upstream
`fetch`, fuel-bounded because termination depends on upstream data. -/

def effectiveStartDate (extremes : Option (Int × Int)) (reqStart : Int) : Int :=
  match extremes with
  | none => reqStart
  | some (mn, mx) => if reqStart < mn then reqStart else mx

def pageSizeCount (m startD cursor : Int) : Int :=
  max 1 (min 200 ((cursor - startD).tdiv usPerMin / m))

def sortTimestamps (l : List Int) : List Int := List.insertionSort (fun a b => a ≤ b) l

def nextCursor (m cursor : Int) (page : Option (List Int)) : Int :=
  match page with
  | some (t :: ts) => (sortTimestamps (t :: ts)).headD cursor
  | _ => cursor - 200 * m * usPerMin

def collectLoop (m : Int) (fetch : Int → Int → Option (List Int)) :
    Nat → Int → Int → List (Int × Int)
  | 0, _, _ => []
  | Nat.succ fuel, startD, cursor =>
    if startD < cursor then
      (cursor, pageSizeCount m startD cursor) ::
        collectLoop m fetch fuel startD
          (nextCursor m cursor (fetch cursor (pageSizeCount m startD cursor)))
    else []

lemma collectLoop_cursor_gt (m : Int) (fetch : Int → Int → Option (List Int)) :
    ∀ (fuel : Nat) (startD cursor : Int) (req : Int × Int),
      req ∈ collectLoop m fetch fuel startD cursor → startD < req.1 := by
  intro fuel
  induction fuel with
  | zero => intro startD cursor req h; simp [collectLoop] at h
  | succ fuel ih =>
    intro startD cursor req h
    simp only [collectLoop] at h
    by_cases hc : startD < cursor
    · rw [if_pos hc] at h
      rcases List.mem_cons.mp h with rfl | h
      · exact hc
      · exact ih startD _ req h
    · rw [if_neg hc] at h
      simp at h

/-- C3: on a non-empty store, the effective start is the requested start
when the stored minimum lies after it and the stored maximum otherwise,
and every fetch request the pagination loop issues has its cursor strictly
beyond that effective start, so no request targets the already-covered
range ending at the stored maximum. -/
theorem resume_decision_spec (mn mx reqStart m : Int)
    (fetch : Int → Int → Option (List Int)) :
    (reqStart < mn → effectiveStartDate (some (mn, mx)) reqStart = reqStart) ∧
    (mn ≤ reqStart → effectiveStartDate (some (mn, mx)) reqStart = mx) ∧
    (∀ (fuel : Nat) (endD : Int) (req : Int × Int),
      req ∈ collectLoop m fetch fuel (effectiveStartDate (some (mn, mx)) reqStart) endD →
      effectiveStartDate (some (mn, mx)) reqStart < req.1) := by
  refine ⟨fun h => ?_, fun h => ?_, fun fuel endD req h => ?_⟩
  · simp [effectiveStartDate, if_pos h]
  · simp [effectiveStartDate, if_neg (not_lt.mpr h)]
  · exact collectLoop_cursor_gt m fetch fuel _ endD req h

/-- C3 witness: stored range [0,100], requested start 50: collection
resumes from the stored maximum. -/
theorem resume_decision_witness :
    effectiveStartDate (some ((0 : Int), 100)) 50 = 100 :=
  (resume_decision_spec 0 100 50 1 (fun _ _ => none)).2.1 (by norm_num)

lemma edivTwice (a b c : Int) (ha : 0 ≤ a) (hb : 0 ≤ b) (hc : 0 ≤ c) :
    a / b / c = a / (b * c) := by
  lift a to ℕ using ha
  lift b to ℕ using hb
  lift c to ℕ using hc
  exact_mod_cast Nat.div_div_eq_div_mul a b c

/-- C7: every page request asks for
`max(1, min(200, floor(diff_minutes / interval)))` candles, which is
always between 1 and 200, even when less than one interval remains. -/
theorem pageSizeCount_spec (m startD cursor : Int) (hm : 0 < m)
    (hc : startD < cursor) :
    pageSizeCount m startD cursor
      = max 1 (min 200 ((cursor - startD) / (usPerMin * m))) ∧
    1 ≤ pageSizeCount m startD cursor ∧
    pageSizeCount m startD cursor ≤ 200 := by
  have hd : (0 : Int) ≤ cursor - startD := by linarith
  have hMin : (0 : Int) ≤ usPerMin := by norm_num [usPerMin]
  refine ⟨?_, le_max_left 1 _, max_le (by norm_num) (min_le_left _ _)⟩
  unfold pageSizeCount
  rw [Int.tdiv_eq_ediv hd hMin, edivTwice _ _ _ hd hMin hm.le]

/-- C7 witness: one minute remaining at interval 1 requests one candle
within bounds. -/
theorem pageSizeCount_witness :
    1 ≤ pageSizeCount 1 0 usPerMin ∧ pageSizeCount 1 0 usPerMin ≤ 200 :=
  ⟨(pageSizeCount_spec 1 0 usPerMin (by norm_num) (by norm_num [usPerMin])).2.1,
   (pageSizeCount_spec 1 0 usPerMin (by norm_num) (by norm_num [usPerMin])).2.2⟩

/-- C8: an absent or empty page moves the cursor backward by exactly
`200 * interval` minutes without raising, strictly decreasing the cursor,
and the loop simply continues from the jumped position. -/
theorem emptyPage_jump (m cursor : Int) (page : Option (List Int)) (hm : 0 < m)
    (hp : page = none ∨ page = some []) :
    nextCursor m cursor page = cursor - 200 * m * usPerMin ∧
    nextCursor m cursor page < cursor ∧
    ∀ (fetch : Int → Int → Option (List Int)) (fuel : Nat) (startD : Int),
      startD < cursor → fetch cursor (pageSizeCount m startD cursor) = none →
      collectLoop m fetch (fuel + 1) startD cursor =
        (cursor, pageSizeCount m startD cursor) ::
          collectLoop m fetch fuel startD (cursor - 200 * m * usPerMin) := by
  have hjump : nextCursor m cursor page = cursor - 200 * m * usPerMin := by
    rcases hp with rfl | rfl <;> rfl
  have hpos : 0 < 200 * m * usPerMin := by
    have h1 : (0 : Int) < usPerMin := by norm_num [usPerMin]
    positivity
  refine ⟨hjump, by linarith, fun fetch fuel startD hsc hf => ?_⟩
  simp only [collectLoop, if_pos hsc, hf]
  rfl

/-- C8 witness: an empty page at interval 1 jumps the cursor back 200
minutes. -/
theorem emptyPage_jump_witness :
    nextCursor 1 0 none = -(200 * usPerMin) ∧ nextCursor 1 0 none < 0 := by
  have h := emptyPage_jump 1 0 none (by norm_num) (Or.inl rfl)
  refine ⟨?_, h.2.1⟩
  rw [h.1]
  ring

end Pyubcc
